import Mathlib

/-!
Shallow embedding of the centroid-initialization strategies of the k-means
library (`src/inits/randompartition.rs`, `src/inits/randomsample.rs`).
Floating-point sample values are embedded as rationals (exact arithmetic),
machine `usize` as `Nat`, and the shared randomness source as an abstract
tape of naturals consumed strictly sequentially.
-/

set_option autoImplicit false

/-- The shared randomness source (`config.rnd`, a sequentially consumed
generator): an abstract infinite tape of naturals together with a cursor.
`gen_range(0..n)` consumes one tape cell and returns a value `< n`
(for `n > 0`); every concrete tape is one possible outcome of the real
generator, so properties proved for all tapes hold for every seed. -/
structure Rng where
  tape : Nat → Nat
  pos : Nat

/-- One sequential draw from the randomness source: `gen_range(0..n)`. -/
def Rng.genRange (r : Rng) (n : Nat) : Nat × Rng :=
  (r.tape r.pos % n, ⟨r.tape, r.pos + 1⟩)

/-- Modelled from the spec (§4.1 lane-parallel storage; `memory.rs` is not
among the provided sources): a dense matrix stored as a flat buffer `bfr`
of rows of width `stride`.  The fields keep the names used at the call
sites in the given sources (`centroids.bfr`, `centroids.stride`). -/
structure StrideMatrix where
  stride : Nat
  bfr : List ℚ
  deriving DecidableEq

/-- Split a flat buffer into exact chunks of `s` values, dropping any
trailing partial chunk (the semantics of `chunks_exact`). -/
def listChunks (s : Nat) (l : List ℚ) : List (List ℚ) :=
  (List.range (l.length / s)).map (fun i => (l.drop (s * i)).take s)

/-- Modelled from the spec (§4.1: "Exposes chunked, lane-aligned iteration";
`memory.rs` is not among the provided sources): `chunks_exact_stride()`
iterates the buffer row by row in exact chunks of `stride` values. -/
def StrideMatrix.chunksExactStride (m : StrideMatrix) : List (List ℚ) :=
  listChunks m.stride m.bfr

/-- Model of `bfr.iter_mut().skip(s).zip(chunk)` combined elementwise with
`f`: position `s + j` of `bfr` becomes `f bfr[s+j] chunk[j]`, stopping as
soon as either sequence is exhausted. -/
def mapZipFrom (f : ℚ → ℚ → ℚ) : List ℚ → Nat → List ℚ → List ℚ
  | bfr, _, [] => bfr
  | [], _, _ => []
  | v :: bfr, 0, x :: xs => f v x :: mapZipFrom f bfr 0 xs
  | v :: bfr, Nat.succ n, xs => v :: mapZipFrom f bfr n xs

/-- Modelled from the spec (§4.1: "an in-place set-nth-chunk write for
initialization"; `memory.rs` is not among the provided sources):
`set_nth_from_iter(n, chunk)` overwrites row `n` of the buffer with `chunk`,
truncated at the buffer end. -/
def StrideMatrix.setNthFromIter (m : StrideMatrix) (n : Nat) (chunk : List ℚ) : StrideMatrix :=
  { m with bfr := mapZipFrom (fun _ x => x) m.bfr (m.stride * n) chunk }

/-- The run state (`KMeansState<T>`), restricted to the fields the
initialization strategies touch or are required to leave intact. -/
structure KMeansState where
  k : Nat
  centroids : StrideMatrix
  assignments : List Nat
  centroid_frequency : List Nat
  distsum : ℚ
  deriving DecidableEq

/-- Pass 1 of `randompartition::calculate`:
`assignments.iter_mut().for_each(|a| { *a = config.rnd.borrow_mut().gen_range(0..k);
centroid_frequency[*a] += 1; })`, recursing over the `n` assignment slots.
Returns the fresh assignments, the updated frequencies and the advanced rng. -/
def rpPass1 (k : Nat) : Nat → List Nat → Rng → List Nat × List Nat × Rng
  | 0, freq, rng => ([], freq, rng)
  | Nat.succ n, freq, rng =>
    let d := rng.genRange k
    let rest := rpPass1 k n (freq.set d.1 (freq.getD d.1 0 + 1)) d.2
    (d.1 :: rest.1, rest.2)

/-- Pass 2 of `randompartition::calculate` over the `(sample, assignment)`
pairs of one block: for each pair,
`centroids.bfr.iter_mut().skip(stride * assignment).zip(sample).for_each(
|(cv, sv)| *cv += sv / T::from(centroid_frequency[assignment]).unwrap())`. -/
def rpAccum (s : Nat) (freq : List Nat) : List ℚ → List (List ℚ × Nat) → List ℚ
  | bfr, [] => bfr
  | bfr, p :: rest =>
    rpAccum s freq
      (mapZipFrom (fun v x => v + x / (freq.getD p.2 0 : ℚ)) bfr (s * p.2) p.1) rest

/-- The function `inits/randompartition.rs::calculate`: pass 1 draws a cluster id for each
sample and tallies frequencies; pass 2 then iterates every sample block,
zipping its chunks against the (start of the) assignments vector and
accumulating each visited sample, scaled by the reciprocal frequency of the
paired assignment, into the centroid row of that assignment. -/
def randompartition_calculate (blocks : List StrideMatrix) (st : KMeansState) (rng : Rng) :
    KMeansState × Rng :=
  let p1 := rpPass1 st.k st.assignments.length st.centroid_frequency rng
  let bfr := blocks.foldl
    (fun b sb => rpAccum st.centroids.stride p1.2.1 b (sb.chunksExactStride.zip p1.1))
    st.centroids.bfr
  ({ st with
      assignments := p1.1
      centroid_frequency := p1.2.1
      centroids := { st.centroids with bfr := bfr } },
    p1.2.2)

/-- The reservoir loop of the rand crate function
`IteratorRandom::choose_multiple` (a dependency of this library): for the `i`-th element beyond the
initial reservoir, draw `gen_range(0..i + 1 + amount)` and overwrite that
reservoir slot when the draw lands inside the reservoir. -/
def chooseLoop (amount : Nat) : List (List ℚ) → List (List ℚ) → Nat → Rng → List (List ℚ) × Rng
  | res, [], _, rng => (res, rng)
  | res, x :: rest, i, rng =>
    let d := rng.genRange (i + 1 + amount)
    chooseLoop amount (res.set d.1 x) rest (i + 1) d.2

/-- The rand crate function `IteratorRandom::choose_multiple`: reservoir sampling of `amount`
distinct elements of `items` (fewer when `items` is shorter than `amount`). -/
def chooseMultiple (rng : Rng) (items : List (List ℚ)) (amount : Nat) : List (List ℚ) × Rng :=
  let res := items.take amount
  if res.length = amount then chooseLoop amount res (items.drop amount) 0 rng
  else (res, rng)

/-- The inner `enumerate().for_each(|(ci, c)| state.centroids.set_nth_from_iter(ci, c))`
of `randomsample::calculate`, started at chunk index `ci`. -/
def writeChunks : Nat → StrideMatrix → List (List ℚ) → StrideMatrix
  | _, cent, [] => cent
  | ci, cent, c :: rest => writeChunks (ci + 1) (cent.setNthFromIter ci c) rest

/-- The function `inits/randomsample.rs::calculate`: for every sample block, choose
`max(state.k / p_samples.len(), 1)` of its rows without replacement and copy
them verbatim into the leading centroid slots. -/
def randomsample_calculate (blocks : List StrideMatrix) (st : KMeansState) (rng : Rng) :
    KMeansState × Rng :=
  let m := max (st.k / blocks.length) 1
  let r := blocks.foldl
    (fun (acc : StrideMatrix × Rng) sb =>
      let d := chooseMultiple acc.2 sb.chunksExactStride m
      (writeChunks 0 acc.1 d.1, d.2))
    (st.centroids, rng)
  ({ st with centroids := r.1 }, r.2)

/-- Modelled from the spec (§7 error handling; the construction/invocation
validation of `api.rs` is not among the provided sources): "k = 0, k > N,
D = 0, or sample buffer length ≠ N·D — rejected immediately at
construction/invocation, never silently truncated or padded." -/
def validateConfig (bufLen n d k : Nat) : Except String Unit :=
  if k = 0 then .error "k must be positive"
  else if n < k then .error "k must not exceed the sample count"
  else if d = 0 then .error "sample dimension must be positive"
  else if bufLen ≠ n * d then .error "sample buffer length must equal N*D"
  else .ok ()

/-- Columnwise sum of a list of rows (specification-side helper used to
state that a centroid holds a mean). -/
def colSum (rows : List (List ℚ)) (j : Nat) : ℚ :=
  (rows.map (fun r => r.getD j 0)).sum

/-- Specification-side description of the effect of one block in
random-sample initialization: copy the rows of `rows` selected by the index list `idx`
verbatim into centroid slots `0, 1, …`. -/
def copyRowsAt (cent : StrideMatrix) (rows : List (List ℚ)) (idx : List Nat) : StrideMatrix :=
  writeChunks 0 cent (idx.map (fun v => rows.getD v []))

/-- Specification-side description of the whole of random-sample
initialization: per block, copy the rows selected by the index list of that
block into the leading centroid slots (later blocks overwrite earlier ones). -/
def copyAllBlocks (cent : StrideMatrix) : List StrideMatrix → List (List Nat) → StrideMatrix
  | [], _ => cent
  | _ :: _, [] => cent
  | b :: bs, idx :: idxs => copyAllBlocks (copyRowsAt cent b.chunksExactStride idx) bs idxs

/-! ### Generic list lemmas -/

theorem set_oob {α : Type} (l : List α) (n : Nat) (a : α) (h : l.length ≤ n) :
    l.set n a = l := by
  induction l generalizing n with
  | nil => simp
  | cons x xs ih =>
    cases n with
    | zero => simp at h
    | succ n => simp [List.set, ih n (by simpa using h)]

theorem getD_oob {α : Type} (l : List α) (n : Nat) (d : α) (h : l.length ≤ n) :
    l.getD n d = d := by
  induction l generalizing n with
  | nil => simp
  | cons x xs ih =>
    cases n with
    | zero => simp at h
    | succ n => simpa using ih n (by simpa using h)

theorem getD_set_self {α : Type} (l : List α) (n : Nat) (a d : α) (h : n < l.length) :
    (l.set n a).getD n d = a := by
  induction l generalizing n with
  | nil => simp at h
  | cons x xs ih =>
    cases n with
    | zero => simp [List.set]
    | succ n => simpa [List.set] using ih n (by simpa using h)

theorem getD_set_ne {α : Type} (l : List α) (n m : Nat) (a d : α) (h : n ≠ m) :
    (l.set n a).getD m d = l.getD m d := by
  induction l generalizing n m with
  | nil => simp
  | cons x xs ih =>
    cases n with
    | zero =>
      cases m with
      | zero => exact absurd rfl h
      | succ m => simp [List.set]
    | succ n =>
      cases m with
      | zero => simp [List.set]
      | succ m => simpa [List.set] using ih n m (by omega)

theorem mem_set {α : Type} {l : List α} {n : Nat} {a b : α} (h : b ∈ l.set n a) :
    b = a ∨ b ∈ l := by
  induction l generalizing n with
  | nil => simp at h
  | cons x xs ih =>
    cases n with
    | zero =>
      rcases (List.mem_cons.1 h) with h1 | h1
      · exact Or.inl h1
      · exact Or.inr (List.mem_cons_of_mem _ h1)
    | succ n =>
      rcases (List.mem_cons.1 h) with h1 | h1
      · exact Or.inr (by simp [h1])
      · rcases ih h1 with h2 | h2
        · exact Or.inl h2
        · exact Or.inr (List.mem_cons_of_mem _ h2)

theorem map_set_comm {α β : Type} (f : α → β) (l : List α) (n : Nat) (a : α) :
    (l.set n a).map f = (l.map f).set n (f a) := by
  induction l generalizing n with
  | nil => simp
  | cons x xs ih =>
    cases n with
    | zero => simp [List.set]
    | succ n => simp [List.set, ih]

theorem sum_set_incr (l : List Nat) (n : Nat) (h : n < l.length) :
    (l.set n (l.getD n 0 + 1)).sum = l.sum + 1 := by
  induction l generalizing n with
  | nil => simp at h
  | cons x xs ih =>
    cases n with
    | zero => simp [List.set]; omega
    | succ n =>
      have := ih n (by simpa using h)
      simp [List.set] at this ⊢
      omega

theorem getD_drop' {α : Type} (l : List α) (n m : Nat) (d : α) :
    (l.drop n).getD m d = l.getD (n + m) d := by
  induction l generalizing n with
  | nil => simp
  | cons x xs ih =>
    cases n with
    | zero => simp
    | succ n =>
      have := ih n
      simp only [List.drop_succ_cons, this]
      have : n + 1 + m = (n + m) + 1 := by omega
      rw [this, List.getD_cons_succ]

theorem take_eq_range_map {α : Type} (d : α) :
    ∀ (n : Nat) (l : List α), n ≤ l.length →
      l.take n = (List.range n).map (fun v => l.getD v d) := by
  intro n
  induction n with
  | zero => simp
  | succ n ih =>
    intro l hl
    cases l with
    | nil => simp at hl
    | cons x xs =>
      rw [List.range_succ_eq_map]
      simp only [List.take_succ_cons, List.map_cons, List.getD_cons_zero, List.map_map]
      rw [ih xs (by simpa using hl)]
      rfl

theorem elem_le_sum (l : List Nat) : ∀ x ∈ l, x ≤ l.sum := by
  induction l with
  | nil => simp
  | cons y ys ih =>
    intro x hx
    rcases List.mem_cons.1 hx with h | h
    · simp [h]
    · have := ih x h
      simp
      omega

theorem zip_replicate_of_le {α β : Type} (b : β) :
    ∀ (l : List α) (n : Nat), l.length ≤ n →
      l.zip (List.replicate n b) = l.map (fun x => (x, b)) := by
  intro l
  induction l with
  | nil => simp
  | cons x xs ih =>
    intro n hn
    cases n with
    | zero => simp at hn
    | succ n =>
      simp only [List.replicate_succ, List.zip_cons_cons, List.map_cons]
      rw [ih n (by simpa using hn)]

/-! ### `mapZipFrom` -/

theorem mapZipFrom_length (f : ℚ → ℚ → ℚ) (bfr : List ℚ) (s : Nat) (c : List ℚ) :
    (mapZipFrom f bfr s c).length = bfr.length := by
  induction bfr generalizing s c with
  | nil => cases c <;> simp [mapZipFrom]
  | cons v bs ih =>
    cases c with
    | nil => simp [mapZipFrom]
    | cons x xs =>
      cases s with
      | zero => simp [mapZipFrom, ih]
      | succ n => simp [mapZipFrom, ih]

theorem mapZipFrom_getD (f : ℚ → ℚ → ℚ) (bfr : List ℚ) (s : Nat) (c : List ℚ) (q : Nat) :
    (mapZipFrom f bfr s c).getD q 0 =
      if s ≤ q ∧ q - s < c.length ∧ q < bfr.length
      then f (bfr.getD q 0) (c.getD (q - s) 0) else bfr.getD q 0 := by
  induction bfr generalizing s c q with
  | nil => cases c <;> simp [mapZipFrom]
  | cons v bs ih =>
    cases c with
    | nil => simp [mapZipFrom]
    | cons x xs =>
      cases s with
      | zero =>
        cases q with
        | zero => simp [mapZipFrom]
        | succ q =>
          simp only [mapZipFrom, List.getD_cons_succ, List.length_cons, Nat.sub_zero]
          rw [ih 0 xs q]
          simp only [Nat.sub_zero, Nat.zero_le, true_and, List.getD_cons_succ, List.length_cons]
          by_cases h1 : q < xs.length <;> by_cases h2 : q < bs.length <;>
            simp [h1, h2] <;> omega
      | succ n =>
        cases q with
        | zero => simp [mapZipFrom]
        | succ q =>
          simp only [mapZipFrom, List.getD_cons_succ, List.length_cons]
          rw [ih n (x :: xs) q]
          simp only [List.length_cons, Nat.succ_sub_succ]
          by_cases h1 : n ≤ q <;> by_cases h2 : q - n < xs.length + 1 <;>
            by_cases h3 : q < bs.length <;> simp [h1, h2, h3] <;> omega

/-! ### `listChunks` -/

theorem length_of_mem_listChunks {s : Nat} {l c : List ℚ} (h : c ∈ listChunks s l) :
    c.length = s := by
  rcases List.mem_map.1 h with ⟨i, hi, rfl⟩
  have hi' : i < l.length / s := List.mem_range.1 hi
  have h1 : s * (i + 1) ≤ s * (l.length / s) := Nat.mul_le_mul_left _ (by omega)
  have h2 : s * (l.length / s) ≤ l.length := by
    rw [mul_comm]
    exact Nat.div_mul_le_self _ _
  have h3 : s * (i + 1) = s * i + s := by ring
  simp only [List.length_take, List.length_drop]
  omega

theorem length_listChunks (s : Nat) (l : List ℚ) :
    (listChunks s l).length = l.length / s := by
  simp [listChunks]

/-! ### `Rng` and `rpPass1` -/

theorem genRange_lt (r : Rng) (n : Nat) (hn : 0 < n) : (r.genRange n).1 < n :=
  Nat.mod_lt _ hn

theorem rpPass1_mem (k : Nat) (hk : 0 < k) :
    ∀ (n : Nat) (freq : List Nat) (rng : Rng),
      ∀ a ∈ (rpPass1 k n freq rng).1, a < k := by
  intro n
  induction n with
  | zero => intro freq rng a ha; simp [rpPass1] at ha
  | succ n ih =>
    intro freq rng a ha
    simp only [rpPass1, List.mem_cons] at ha
    rcases ha with h | h
    · subst h; exact genRange_lt _ _ hk
    · exact ih _ _ a h

theorem rpPass1_len_sum (k : Nat) (hk : 0 < k) :
    ∀ (n : Nat) (freq : List Nat) (rng : Rng), freq.length = k →
      (rpPass1 k n freq rng).2.1.length = k ∧
      (rpPass1 k n freq rng).2.1.sum = freq.sum + n := by
  intro n
  induction n with
  | zero => intro freq rng h; simp [rpPass1, h]
  | succ n ih =>
    intro freq rng h
    have ha : (rng.genRange k).1 < freq.length := by rw [h]; exact genRange_lt _ _ hk
    have hset : (freq.set (rng.genRange k).1 (freq.getD (rng.genRange k).1 0 + 1)).length = k := by
      simp [h]
    have hrec := ih (freq.set (rng.genRange k).1 (freq.getD (rng.genRange k).1 0 + 1))
      (rng.genRange k).2 hset
    simp only [rpPass1]
    refine ⟨hrec.1, ?_⟩
    rw [hrec.2, sum_set_incr _ _ ha]
    omega

theorem rpPass1_freq_mono (k : Nat) :
    ∀ (n : Nat) (freq : List Nat) (rng : Rng) (c : Nat),
      freq.getD c 0 ≤ (rpPass1 k n freq rng).2.1.getD c 0 := by
  intro n
  induction n with
  | zero => intro freq rng c; simp [rpPass1]
  | succ n ih =>
    intro freq rng c
    have step : freq.getD c 0 ≤
        (freq.set (rng.genRange k).1 (freq.getD (rng.genRange k).1 0 + 1)).getD c 0 := by
      by_cases hc : (rng.genRange k).1 = c
      · subst hc
        by_cases hlen : (rng.genRange k).1 < freq.length
        · rw [getD_set_self _ _ _ _ hlen]; omega
        · rw [set_oob _ _ _ (by omega)]
      · rw [getD_set_ne _ _ _ _ _ hc]
    simp only [rpPass1]
    exact le_trans step (ih _ _ c)

theorem rpPass1_freq_pos (k : Nat) (hk : 0 < k) :
    ∀ (n : Nat) (freq : List Nat) (rng : Rng), freq.length = k →
      ∀ c ∈ (rpPass1 k n freq rng).1, 1 ≤ (rpPass1 k n freq rng).2.1.getD c 0 := by
  intro n
  induction n with
  | zero => intro freq rng h c hc; simp [rpPass1] at hc
  | succ n ih =>
    intro freq rng h c hc
    simp only [rpPass1, List.mem_cons] at hc
    simp only [rpPass1]
    rcases hc with hc | hc
    · subst hc
      have ha : (rng.genRange k).1 < freq.length := by rw [h]; exact genRange_lt _ _ hk
      have h1 : (freq.set (rng.genRange k).1 (freq.getD (rng.genRange k).1 0 + 1)).getD
          (rng.genRange k).1 0 = freq.getD (rng.genRange k).1 0 + 1 :=
        getD_set_self _ _ _ _ (by simpa using ha)
      have h2 := rpPass1_freq_mono k n
        (freq.set (rng.genRange k).1 (freq.getD (rng.genRange k).1 0 + 1))
        (rng.genRange k).2 (rng.genRange k).1
      omega
    · exact ih _ _ (by simp [h]) c hc

theorem rpPass1_k1 : ∀ (n m : Nat) (rng : Rng),
    (rpPass1 1 n [m] rng).1 = List.replicate n 0 ∧
    (rpPass1 1 n [m] rng).2.1 = [m + n] := by
  intro n
  induction n with
  | zero => intro m rng; simp [rpPass1]
  | succ n ih =>
    intro m rng
    have h0 : (rng.genRange 1).1 = 0 := by simp [Rng.genRange, Nat.mod_one]
    have hset : ([m].set 0 ([m].getD 0 0 + 1)) = [m + 1] := rfl
    simp only [rpPass1, h0, hset]
    have hrec := ih (m + 1) (rng.genRange 1).2
    refine ⟨?_, ?_⟩
    · rw [hrec.1, List.replicate_succ]
    · rw [hrec.2]
      congr 1
      omega

/-! ### `colSum` -/

theorem colSum_cons (r : List ℚ) (rest : List (List ℚ)) (j : Nat) :
    colSum (r :: rest) j = r.getD j 0 + colSum rest j := by
  simp [colSum]

theorem colSum_append (l1 l2 : List (List ℚ)) (j : Nat) :
    colSum (l1 ++ l2) j = colSum l1 j + colSum l2 j := by
  simp [colSum]

theorem colSum_zero_of_short (rows : List (List ℚ)) (j : Nat)
    (h : ∀ r ∈ rows, r.length ≤ j) : colSum rows j = 0 := by
  induction rows with
  | nil => simp [colSum]
  | cons r rest ih =>
    rw [colSum_cons, getD_oob _ _ _ (h r (List.mem_cons_self _ _)),
      ih (fun q hq => h q (List.mem_cons_of_mem _ hq))]
    simp

/-! ### `rpAccum` -/

theorem rpAccum_length (s : Nat) (freq : List Nat) :
    ∀ (pairs : List (List ℚ × Nat)) (bfr : List ℚ),
      (rpAccum s freq bfr pairs).length = bfr.length := by
  intro pairs
  induction pairs with
  | nil => intro bfr; simp [rpAccum]
  | cons p rest ih =>
    intro bfr
    simp [rpAccum, ih, mapZipFrom_length]

theorem rpAccum_frame (s : Nat) (freq : List Nat) (cIdx : Nat) :
    ∀ (pairs : List (List ℚ × Nat)) (bfr : List ℚ),
      (∀ p ∈ pairs, p.1.length = s ∧ p.2 ≠ cIdx) →
      ∀ t, t < s →
        (rpAccum s freq bfr pairs).getD (s * cIdx + t) 0 = bfr.getD (s * cIdx + t) 0 := by
  intro pairs
  induction pairs with
  | nil => intro bfr h t ht; simp [rpAccum]
  | cons p rest ih =>
    intro bfr h t ht
    have hp := h p (List.mem_cons_self _ _)
    simp only [rpAccum]
    rw [ih _ (fun q hq => h q (List.mem_cons_of_mem _ hq)) t ht]
    rw [mapZipFrom_getD, hp.1]
    have hne : p.2 ≠ cIdx := hp.2
    rcases Nat.lt_or_ge p.2 cIdx with hlt | hge
    · have h1 : s * (p.2 + 1) ≤ s * cIdx := Nat.mul_le_mul_left _ (by omega)
      have h2 : s * (p.2 + 1) = s * p.2 + s := by ring
      rw [if_neg (by omega)]
    · have hgt : cIdx < p.2 := by omega
      have h1 : s * (cIdx + 1) ≤ s * p.2 := Nat.mul_le_mul_left _ (by omega)
      have h2 : s * (cIdx + 1) = s * cIdx + s := by ring
      rw [if_neg (by omega)]

theorem rpAccum_cols (s : Nat) (freq : List Nat) :
    ∀ (rows : List (List ℚ)) (bfr : List ℚ),
      (∀ r ∈ rows, r.length = bfr.length) →
      ∀ j, (rpAccum s freq bfr (rows.map (fun r => (r, 0)))).getD j 0 =
        bfr.getD j 0 +
          (if j < bfr.length then colSum rows j / (freq.getD 0 0 : ℚ) else 0) := by
  intro rows
  induction rows with
  | nil => intro bfr h j; simp [rpAccum, colSum]
  | cons r rest ih =>
    intro bfr h j
    have hr : r.length = bfr.length := h r (List.mem_cons_self _ _)
    simp only [List.map_cons, rpAccum]
    have hlen : (mapZipFrom (fun v x => v + x / (freq.getD 0 0 : ℚ)) bfr (s * 0) r).length
        = bfr.length := mapZipFrom_length _ _ _ _
    have h' : ∀ q ∈ rest,
        q.length = (mapZipFrom (fun v x => v + x / (freq.getD 0 0 : ℚ)) bfr (s * 0) r).length := by
      intro q hq
      rw [hlen]
      exact h q (List.mem_cons_of_mem _ hq)
    rw [ih _ h' j, hlen, mapZipFrom_getD]
    simp only [Nat.mul_zero, Nat.zero_le, true_and, Nat.sub_zero]
    by_cases hj : j < bfr.length
    · rw [if_pos ⟨by omega, hj⟩, if_pos hj, if_pos hj, colSum_cons]
      have hd : r.getD j 0 / (freq.getD 0 0 : ℚ) + colSum rest j / (freq.getD 0 0 : ℚ)
          = (r.getD j 0 + colSum rest j) / (freq.getD 0 0 : ℚ) := div_add_div_same _ _ _
      rw [add_assoc, hd]
    · rw [if_neg (by omega), if_neg hj, if_neg hj]

/-! ### `writeChunks` -/

theorem writeChunks_stride :
    ∀ (cs : List (List ℚ)) (ci : Nat) (cent : StrideMatrix),
      (writeChunks ci cent cs).stride = cent.stride := by
  intro cs
  induction cs with
  | nil => intro ci cent; simp [writeChunks]
  | cons c rest ih =>
    intro ci cent
    simp only [writeChunks]
    rw [ih]
    rfl

theorem writeChunks_bfr_length :
    ∀ (cs : List (List ℚ)) (ci : Nat) (cent : StrideMatrix),
      (writeChunks ci cent cs).bfr.length = cent.bfr.length := by
  intro cs
  induction cs with
  | nil => intro ci cent; simp [writeChunks]
  | cons c rest ih =>
    intro ci cent
    simp only [writeChunks]
    rw [ih]
    exact mapZipFrom_length _ _ _ _

theorem writeChunks_frame_lt :
    ∀ (cs : List (List ℚ)) (ci : Nat) (cent : StrideMatrix) (q : Nat),
      q < cent.stride * ci →
      (writeChunks ci cent cs).bfr.getD q 0 = cent.bfr.getD q 0 := by
  intro cs
  induction cs with
  | nil => intro ci cent q hq; simp [writeChunks]
  | cons c rest ih =>
    intro ci cent q hq
    have hmono : cent.stride * ci ≤ cent.stride * (ci + 1) := Nat.mul_le_mul_left _ (by omega)
    simp only [writeChunks]
    have hframe := ih (ci + 1) (cent.setNthFromIter ci c) q
      (by show q < cent.stride * (ci + 1); omega)
    rw [hframe]
    show (mapZipFrom (fun _ x => x) cent.bfr (cent.stride * ci) c).getD q 0 = cent.bfr.getD q 0
    rw [mapZipFrom_getD, if_neg (by omega)]

theorem writeChunks_getD :
    ∀ (cs : List (List ℚ)) (ci : Nat) (cent : StrideMatrix),
      (∀ c ∈ cs, c.length = cent.stride) →
      cent.stride * (ci + cs.length) ≤ cent.bfr.length →
      ∀ j, j < cs.length → ∀ t, t < cent.stride →
        (writeChunks ci cent cs).bfr.getD (cent.stride * (ci + j) + t) 0
          = (cs.getD j []).getD t 0 := by
  intro cs
  induction cs with
  | nil =>
    intro ci cent h hfit j hj
    exact absurd hj (by simp)
  | cons c rest ih =>
    intro ci cent h hfit j hj t ht
    simp only [List.length_cons] at hfit
    have e0 : cent.stride * (ci + 0) = cent.stride * ci := by ring
    have e1 : cent.stride * (ci + 1) = cent.stride * ci + cent.stride := by ring
    have e2 : cent.stride * (ci + 1) ≤ cent.stride * (ci + (rest.length + 1)) :=
      Nat.mul_le_mul_left _ (by omega)
    cases j with
    | zero =>
      have hlenc : c.length = cent.stride := h c (List.mem_cons_self _ _)
      simp only [writeChunks]
      have hframe := writeChunks_frame_lt rest (ci + 1) (cent.setNthFromIter ci c)
        (cent.stride * (ci + 0) + t)
        (by show cent.stride * (ci + 0) + t < cent.stride * (ci + 1); omega)
      rw [hframe]
      show (mapZipFrom (fun _ x => x) cent.bfr (cent.stride * ci) c).getD
          (cent.stride * (ci + 0) + t) 0 = ((c :: rest).getD 0 []).getD t 0
      rw [mapZipFrom_getD, if_pos ⟨by omega, by omega, by omega⟩]
      show c.getD (cent.stride * (ci + 0) + t - cent.stride * ci) 0
          = ((c :: rest).getD 0 []).getD t 0
      rw [List.getD_cons_zero]
      congr 1
      omega
    | succ j =>
      have hblen : (cent.setNthFromIter ci c).bfr.length = cent.bfr.length :=
        mapZipFrom_length _ _ _ _
      have hfit2 : cent.stride * ((ci + 1) + rest.length) ≤ (cent.setNthFromIter ci c).bfr.length := by
        rw [hblen]
        have e3 : cent.stride * ((ci + 1) + rest.length) = cent.stride * (ci + (rest.length + 1)) := by
          ring
        omega
      have hrec := ih (ci + 1) (cent.setNthFromIter ci c)
        (fun c2 hc2 => h c2 (List.mem_cons_of_mem _ hc2)) hfit2 j (by simpa using hj) t ht
      simp only [writeChunks]
      have e4 : cent.stride * (ci + (j + 1)) = cent.stride * ((ci + 1) + j) := by ring
      rw [e4]
      exact hrec

/-! ### reservoir sampling (`chooseLoop`, `chooseMultiple`) -/

theorem nodup_set_fresh :
    ∀ (l : List Nat) (c : Nat) (j : Nat), l.Nodup → (∀ v ∈ l, v < c) → (l.set j c).Nodup := by
  intro l
  induction l with
  | nil => intro c j _ _; simp
  | cons a as ih =>
    intro c j hnd hbd
    rcases List.nodup_cons.1 hnd with ⟨ha, hnd'⟩
    cases j with
    | zero =>
      simp only [List.set]
      refine List.nodup_cons.2 ⟨?_, hnd'⟩
      intro hc
      exact absurd (hbd c (List.mem_cons_of_mem _ hc)) (lt_irrefl c)
    | succ j =>
      simp only [List.set]
      refine List.nodup_cons.2
        ⟨?_, ih c j hnd' (fun v hv => hbd v (List.mem_cons_of_mem _ hv))⟩
      intro hmem
      rcases mem_set hmem with h1 | h1
      · exact absurd (hbd a (List.mem_cons_self _ _)) (by rw [h1]; exact lt_irrefl c)
      · exact ha h1

theorem chooseLoop_spec (amount : Nat) (g : Nat → List ℚ) :
    ∀ (rest : List (List ℚ)) (idx : List Nat) (i : Nat) (rng : Rng),
      idx.Nodup →
      (∀ v ∈ idx, v < amount + i) →
      (∀ t, t < rest.length → rest.getD t [] = g (amount + i + t)) →
      ∃ idx2 : List Nat, idx2.Nodup ∧ (∀ v ∈ idx2, v < amount + i + rest.length) ∧
        idx2.length = idx.length ∧
        (chooseLoop amount (idx.map g) rest i rng).1 = idx2.map g := by
  intro rest
  induction rest with
  | nil =>
    intro idx i rng hnd hbd hrest
    exact ⟨idx, hnd, fun v hv => by have := hbd v hv; simpa using (by omega : v < amount + i + 0),
      rfl, by simp [chooseLoop]⟩
  | cons x rest ih =>
    intro idx i rng hnd hbd hrest
    have hx : x = g (amount + i) := by
      have h1 := hrest 0 (by simp)
      simpa using h1
    have hrest' : ∀ t, t < rest.length → rest.getD t [] = g (amount + (i + 1) + t) := by
      intro t htl
      have h1 := hrest (t + 1) (by simp; omega)
      rw [List.getD_cons_succ] at h1
      rw [h1]
      congr 1
      omega
    by_cases hjlen : (rng.genRange (i + 1 + amount)).1 < idx.length
    · have hset : (idx.map g).set (rng.genRange (i + 1 + amount)).1 x
          = (idx.set (rng.genRange (i + 1 + amount)).1 (amount + i)).map g := by
        rw [map_set_comm, hx]
      have hnd' : (idx.set (rng.genRange (i + 1 + amount)).1 (amount + i)).Nodup :=
        nodup_set_fresh idx (amount + i) _ hnd hbd
      have hbd' : ∀ v ∈ idx.set (rng.genRange (i + 1 + amount)).1 (amount + i),
          v < amount + (i + 1) := by
        intro v hv
        rcases mem_set hv with h1 | h1
        · omega
        · have := hbd v h1; omega
      obtain ⟨idx2, h2nd, h2bd, h2len, h2eq⟩ :=
        ih (idx.set (rng.genRange (i + 1 + amount)).1 (amount + i)) (i + 1)
          (rng.genRange (i + 1 + amount)).2 hnd' hbd' hrest'
      refine ⟨idx2, h2nd, ?_, ?_, ?_⟩
      · intro v hv
        have := h2bd v hv
        simp only [List.length_cons]
        omega
      · rw [h2len, List.length_set]
      · simp only [chooseLoop]
        rw [hset]
        exact h2eq
    · have hset2 : (idx.map g).set (rng.genRange (i + 1 + amount)).1 x = idx.map g :=
        set_oob _ _ _ (by simp; omega)
      obtain ⟨idx2, h2nd, h2bd, h2len, h2eq⟩ :=
        ih idx (i + 1) (rng.genRange (i + 1 + amount)).2 hnd
          (fun v hv => by have := hbd v hv; omega) hrest'
      refine ⟨idx2, h2nd, ?_, h2len, ?_⟩
      · intro v hv
        have := h2bd v hv
        simp only [List.length_cons]
        omega
      · simp only [chooseLoop]
        rw [hset2]
        exact h2eq

theorem chooseMultiple_spec (rng : Rng) (items : List (List ℚ)) (amount : Nat) :
    ∃ idx : List Nat, idx.Nodup ∧ (∀ v ∈ idx, v < items.length) ∧
      idx.length = min amount items.length ∧
      (chooseMultiple rng items amount).1 = idx.map (fun v => items.getD v []) := by
  by_cases hle : amount ≤ items.length
  · have htake : items.take amount = (List.range amount).map (fun v => items.getD v []) :=
      take_eq_range_map [] amount items hle
    have hcond : (items.take amount).length = amount := by
      rw [List.length_take]
      omega
    obtain ⟨idx2, hnd, hbd, hlen2, heq⟩ := chooseLoop_spec amount (fun v => items.getD v [])
      (items.drop amount) (List.range amount) 0 rng (List.nodup_range _)
      (by intro v hv; simpa using List.mem_range.1 hv)
      (by
        intro t ht
        rw [getD_drop']
        congr 1)
    refine ⟨idx2, hnd, ?_, ?_, ?_⟩
    · intro v hv
      have := hbd v hv
      simp only [List.length_drop] at this
      omega
    · rw [hlen2, List.length_range]
      omega
    · simp only [chooseMultiple]
      rw [if_pos hcond, htake]
      exact heq
  · have hlt : items.length < amount := by omega
    have htake : items.take amount = items := List.take_of_length_le (by omega)
    have hcond : ¬ (items.take amount).length = amount := by
      rw [htake]
      omega
    have h2 : items = (List.range items.length).map (fun v => items.getD v []) := by
      have h3 := take_eq_range_map ([] : List ℚ) items.length items le_rfl
      rwa [List.take_length] at h3
    refine ⟨List.range items.length, List.nodup_range _,
      (fun v hv => List.mem_range.1 hv), ?_, ?_⟩
    · rw [List.length_range]
      omega
    · simp only [chooseMultiple]
      rw [if_neg hcond, htake]
      exact h2

/-! ### block folds of `randompartition_calculate` -/

theorem rpFold_frame (s : Nat) (freq : List Nat) (asg : List Nat) (cIdx : Nat)
    (hc : cIdx ∉ asg) :
    ∀ (blocks : List StrideMatrix) (bfr : List ℚ),
      (∀ b ∈ blocks, b.stride = s) →
      ∀ t, t < s →
        (blocks.foldl (fun acc sb => rpAccum s freq acc (sb.chunksExactStride.zip asg)) bfr).getD
            (s * cIdx + t) 0
          = bfr.getD (s * cIdx + t) 0 := by
  intro blocks
  induction blocks with
  | nil => intro bfr h t ht; simp
  | cons b bs ih =>
    intro bfr h t ht
    simp only [List.foldl_cons]
    rw [ih _ (fun q hq => h q (List.mem_cons_of_mem _ hq)) t ht]
    refine rpAccum_frame s freq cIdx _ _ ?_ t ht
    intro p hp
    obtain ⟨c, a⟩ := p
    have hmem := List.of_mem_zip hp
    refine ⟨?_, ?_⟩
    · have hl := length_of_mem_listChunks hmem.1
      rw [hl]
      exact h b (List.mem_cons_self _ _)
    · intro he
      exact hc (he ▸ hmem.2)

theorem rpFold_k1 (s : Nat) (freq : List Nat) (N : Nat) :
    ∀ (blocks : List StrideMatrix) (bfr : List ℚ),
      (∀ b ∈ blocks, ∀ r ∈ b.chunksExactStride, r.length = bfr.length) →
      (∀ b ∈ blocks, b.chunksExactStride.length ≤ N) →
      ∀ j,
        (blocks.foldl
            (fun acc sb => rpAccum s freq acc (sb.chunksExactStride.zip (List.replicate N 0)))
            bfr).getD j 0
          = bfr.getD j 0 +
            (if j < bfr.length then
              colSum ((blocks.map (fun b => b.chunksExactStride)).flatten) j / (freq.getD 0 0 : ℚ)
            else 0) := by
  intro blocks
  induction blocks with
  | nil =>
    intro bfr h1 h2 j
    simp [colSum]
  | cons b bs ih =>
    intro bfr h1 h2 j
    simp only [List.foldl_cons]
    rw [zip_replicate_of_le _ _ _ (h2 b (List.mem_cons_self _ _))]
    have h1b : ∀ r ∈ b.chunksExactStride, r.length = bfr.length := h1 b (List.mem_cons_self _ _)
    have hlen : (rpAccum s freq bfr (b.chunksExactStride.map (fun r => (r, 0)))).length
        = bfr.length := rpAccum_length _ _ _ _
    have h1' : ∀ b2 ∈ bs, ∀ r ∈ b2.chunksExactStride,
        r.length = (rpAccum s freq bfr (b.chunksExactStride.map (fun r => (r, 0)))).length := by
      intro b2 hb2 r hr
      rw [hlen]
      exact h1 b2 (List.mem_cons_of_mem _ hb2) r hr
    have h2' : ∀ b2 ∈ bs, b2.chunksExactStride.length ≤ N :=
      fun b2 hb2 => h2 b2 (List.mem_cons_of_mem _ hb2)
    rw [ih _ h1' h2' j, hlen, rpAccum_cols s freq _ _ h1b j]
    simp only [List.map_cons, List.flatten_cons]
    by_cases hj : j < bfr.length
    · rw [if_pos hj, if_pos hj, if_pos hj, colSum_append]
      rw [add_assoc, div_add_div_same]
    · rw [if_neg hj, if_neg hj, if_neg hj]
      simp

/-! ### the fold of `randomsample_calculate` -/

theorem rsFold_spec (m : Nat) :
    ∀ (blocks : List StrideMatrix) (cent : StrideMatrix) (rng : Rng),
      ∃ idxs : List (List Nat), idxs.length = blocks.length ∧
        (∀ p ∈ blocks.zip idxs, p.2.Nodup ∧ (∀ v ∈ p.2, v < p.1.chunksExactStride.length) ∧
          p.2.length = min m p.1.chunksExactStride.length) ∧
        (blocks.foldl
            (fun (acc : StrideMatrix × Rng) sb =>
              let d := chooseMultiple acc.2 sb.chunksExactStride m
              (writeChunks 0 acc.1 d.1, d.2))
            (cent, rng)).1 = copyAllBlocks cent blocks idxs := by
  intro blocks
  induction blocks with
  | nil =>
    intro cent rng
    exact ⟨[], rfl, by simp, by simp [copyAllBlocks]⟩
  | cons b bs ih =>
    intro cent rng
    obtain ⟨idx, hnd, hbd, hlen, heq⟩ := chooseMultiple_spec rng b.chunksExactStride m
    obtain ⟨idxs, hl, hp, hfold⟩ :=
      ih (writeChunks 0 cent (chooseMultiple rng b.chunksExactStride m).1)
        (chooseMultiple rng b.chunksExactStride m).2
    refine ⟨idx :: idxs, by simp [hl], ?_, ?_⟩
    · intro p hp2
      rcases List.mem_cons.1 (by simpa using hp2) with h1 | h1
      · rw [h1]
        exact ⟨hnd, hbd, hlen⟩
      · exact hp p h1
    · have hcopy : copyRowsAt cent b.chunksExactStride idx
          = writeChunks 0 cent (chooseMultiple rng b.chunksExactStride m).1 := by
        simp only [copyRowsAt, heq]
      rw [List.foldl_cons]
      simp only [copyAllBlocks]
      rw [hcopy]
      exact hfold

theorem getD_mem {α : Type} :
    ∀ (l : List α) (n : Nat) (d : α), n < l.length → l.getD n d ∈ l := by
  intro l
  induction l with
  | nil => intro n d h; simp at h
  | cons x xs ih =>
    intro n d h
    cases n with
    | zero => simp
    | succ n => exact List.mem_cons_of_mem _ (ih n d (by simpa using h))

theorem getD_map_lt {α β : Type} (f : α → β) :
    ∀ (l : List α) (n : Nat) (d : β) (d2 : α), n < l.length →
      (l.map f).getD n d = f (l.getD n d2) := by
  intro l
  induction l with
  | nil => intro n d d2 h; simp at h
  | cons x xs ih =>
    intro n d d2 h
    cases n with
    | zero => simp
    | succ n => simpa using ih n d d2 (by simpa using h)

theorem getD_replicate_zero : ∀ (n j : Nat), (List.replicate n (0 : ℚ)).getD j 0 = 0 := by
  intro n
  induction n with
  | zero => intro j; simp
  | succ n ih =>
    intro j
    cases j with
    | zero => simp [List.replicate_succ]
    | succ j => simpa [List.replicate_succ] using ih j

theorem writeChunks_frame_ge :
    ∀ (cs : List (List ℚ)) (ci : Nat) (cent : StrideMatrix) (q : Nat),
      (∀ c ∈ cs, c.length ≤ cent.stride) →
      cent.stride * (ci + cs.length) ≤ q →
      (writeChunks ci cent cs).bfr.getD q 0 = cent.bfr.getD q 0 := by
  intro cs
  induction cs with
  | nil => intro ci cent q h hq; simp [writeChunks]
  | cons c rest ih =>
    intro ci cent q h hq
    simp only [List.length_cons] at hq
    have e1 : cent.stride * (ci + 1) = cent.stride * ci + cent.stride := by ring
    have e2 : cent.stride * (ci + 1) ≤ cent.stride * (ci + (rest.length + 1)) :=
      Nat.mul_le_mul_left _ (by omega)
    have e3 : cent.stride * ((ci + 1) + rest.length) = cent.stride * (ci + (rest.length + 1)) := by
      ring
    have hlenc : c.length ≤ cent.stride := h c (List.mem_cons_self _ _)
    simp only [writeChunks]
    have hrec := ih (ci + 1) (cent.setNthFromIter ci c) q
      (fun c2 hc2 => h c2 (List.mem_cons_of_mem _ hc2))
      (by show cent.stride * ((ci + 1) + rest.length) ≤ q; omega)
    rw [hrec]
    show (mapZipFrom (fun _ x => x) cent.bfr (cent.stride * ci) c).getD q 0 = cent.bfr.getD q 0
    rw [mapZipFrom_getD, if_neg (by omega)]

theorem rsFold_frame (m : Nat) :
    ∀ (blocks : List StrideMatrix) (cent : StrideMatrix) (rng : Rng),
      (∀ b ∈ blocks, b.stride = cent.stride) →
      (blocks.foldl
          (fun (acc : StrideMatrix × Rng) sb =>
            let d := chooseMultiple acc.2 sb.chunksExactStride m
            (writeChunks 0 acc.1 d.1, d.2))
          (cent, rng)).1.stride = cent.stride ∧
      (blocks.foldl
          (fun (acc : StrideMatrix × Rng) sb =>
            let d := chooseMultiple acc.2 sb.chunksExactStride m
            (writeChunks 0 acc.1 d.1, d.2))
          (cent, rng)).1.bfr.length = cent.bfr.length ∧
      ∀ q, cent.stride * m ≤ q →
        (blocks.foldl
            (fun (acc : StrideMatrix × Rng) sb =>
              let d := chooseMultiple acc.2 sb.chunksExactStride m
              (writeChunks 0 acc.1 d.1, d.2))
            (cent, rng)).1.bfr.getD q 0 = cent.bfr.getD q 0 := by
  intro blocks
  induction blocks with
  | nil =>
    intro cent rng h
    exact ⟨rfl, rfl, fun q hq => rfl⟩
  | cons b bs ih =>
    intro cent rng h
    obtain ⟨idx, hnd, hbd, hlen, heq⟩ := chooseMultiple_spec rng b.chunksExactStride m
    have hstride : (writeChunks 0 cent (chooseMultiple rng b.chunksExactStride m).1).stride
        = cent.stride := writeChunks_stride _ _ _
    have hblen : (writeChunks 0 cent (chooseMultiple rng b.chunksExactStride m).1).bfr.length
        = cent.bfr.length := writeChunks_bfr_length _ _ _
    have hchunklen : ∀ c ∈ (chooseMultiple rng b.chunksExactStride m).1, c.length ≤ cent.stride := by
      intro c hc
      rw [heq] at hc
      rcases List.mem_map.1 hc with ⟨v, hv, rfl⟩
      have hvlt : v < b.chunksExactStride.length := hbd v hv
      have hmem : b.chunksExactStride.getD v [] ∈ b.chunksExactStride := getD_mem _ _ _ hvlt
      rw [length_of_mem_listChunks hmem, h b (List.mem_cons_self _ _)]
    have hcount : (chooseMultiple rng b.chunksExactStride m).1.length ≤ m := by
      rw [heq, List.length_map, hlen]
      omega
    have hb' : ∀ b2 ∈ bs,
        b2.stride = (writeChunks 0 cent (chooseMultiple rng b.chunksExactStride m).1).stride := by
      intro b2 hb2
      rw [hstride]
      exact h b2 (List.mem_cons_of_mem _ hb2)
    obtain ⟨ih1, ih2, ih3⟩ :=
      ih (writeChunks 0 cent (chooseMultiple rng b.chunksExactStride m).1)
        (chooseMultiple rng b.chunksExactStride m).2 hb'
    refine ⟨?_, ?_, ?_⟩
    · rw [List.foldl_cons]
      exact ih1.trans hstride
    · rw [List.foldl_cons]
      exact ih2.trans hblen
    · intro q hq
      rw [List.foldl_cons]
      refine (ih3 q (by rw [hstride]; omega)).trans ?_
      refine writeChunks_frame_ge _ 0 cent q hchunklen ?_
      have hmul : cent.stride * (chooseMultiple rng b.chunksExactStride m).1.length
          ≤ cent.stride * m := Nat.mul_le_mul_left _ hcount
      have hz : cent.stride * (0 + (chooseMultiple rng b.chunksExactStride m).1.length)
          = cent.stride * (chooseMultiple rng b.chunksExactStride m).1.length := by ring
      omega

/-! ### Claim theorems -/

/-- Claim C1, code divergence witness: with two sample blocks `[1]` and `[2]`
(stride 1), `k = 2`, zero-initialized centroids and frequencies, and a tape
drawing cluster 0 then cluster 1, pass 1 assigns sample 0 to cluster 0 and
sample 1 to cluster 1 (frequencies `[1, 1]`), yet because pass 2 zips every
block against the assignments vector from index 0, both samples are
accumulated into cluster 0: the centroids end as `[3, 0]` instead of the
per-cluster means `[1, 2]` the claim (and spec §4.3) require. -/
theorem randompartition_prefix_zip_eval :
    (randompartition_calculate [⟨1, [1]⟩, ⟨1, [2]⟩]
        ⟨2, ⟨1, [0, 0]⟩, [0, 0], [0, 0], 0⟩ ⟨fun p => p, 0⟩).1
      = ⟨2, ⟨1, [3, 0]⟩, [0, 1], [1, 1], 0⟩ := by
  norm_num [randompartition_calculate, rpPass1, Rng.genRange, rpAccum, mapZipFrom,
    StrideMatrix.chunksExactStride, listChunks, List.range_succ]

/-- Claim C3: after random-partition initialization with `0 < k ≤ N` and
zero-initialized frequencies, every assignment lies in `[0, k)` and the
centroid frequencies sum to `N`, the number of samples. -/
theorem randompartition_invariants (blocks : List StrideMatrix) (st : KMeansState) (rng : Rng)
    (hk : 0 < st.k) (hkN : st.k ≤ st.assignments.length)
    (hfreq : st.centroid_frequency = List.replicate st.k 0) :
    (∀ a ∈ (randompartition_calculate blocks st rng).1.assignments, a < st.k) ∧
    ((randompartition_calculate blocks st rng).1.centroid_frequency).sum
      = st.assignments.length := by
  have hlen : st.centroid_frequency.length = st.k := by rw [hfreq]; simp
  constructor
  · intro a ha
    simp only [randompartition_calculate] at ha
    exact rpPass1_mem st.k hk _ _ _ a ha
  · simp only [randompartition_calculate]
    have hs := (rpPass1_len_sum st.k hk st.assignments.length st.centroid_frequency rng hlen).2
    rw [hs, hfreq]
    simp

/-- Witness for C3: a concrete run with `k = 2`, `N = 2`. -/
theorem randompartition_invariants_witness :
    (∀ a ∈ (randompartition_calculate [⟨1, [1, 2]⟩]
        ⟨2, ⟨1, [0, 0]⟩, [5, 5], [0, 0], 0⟩ ⟨fun p => p, 0⟩).1.assignments, a < 2) ∧
    ((randompartition_calculate [⟨1, [1, 2]⟩]
        ⟨2, ⟨1, [0, 0]⟩, [5, 5], [0, 0], 0⟩ ⟨fun p => p, 0⟩).1.centroid_frequency).sum = 2 :=
  randompartition_invariants [⟨1, [1, 2]⟩] ⟨2, ⟨1, [0, 0]⟩, [5, 5], [0, 0], 0⟩ ⟨fun p => p, 0⟩
    (by decide) (by decide) rfl

/-- Claim C9: every `(sample, assignment)` pair visited by pass 2 — the
chunks of a block zipped against the pass-1 assignment vector — has divisor
`centroid_frequency[assignment]` at least 1, so the division in pass 2 never
divides by zero. -/
theorem randompartition_divisor_pos (blocks : List StrideMatrix) (st : KMeansState) (rng : Rng)
    (hk : 0 < st.k) (hflen : st.centroid_frequency.length = st.k)
    (hN : 0 < st.assignments.length) :
    ∀ b ∈ blocks,
      ∀ p ∈ b.chunksExactStride.zip (randompartition_calculate blocks st rng).1.assignments,
        1 ≤ (randompartition_calculate blocks st rng).1.centroid_frequency.getD p.2 0 := by
  intro b hb p hp
  simp only [randompartition_calculate] at hp ⊢
  obtain ⟨c, a⟩ := p
  have hmem := (List.of_mem_zip hp).2
  exact rpPass1_freq_pos st.k hk _ _ _ hflen a hmem

/-- Witness for C9: a concrete run with one block of two samples, `k = 2`,
at the visited pair of sample `[1]` with its pass-1 assignment 0. -/
theorem randompartition_divisor_pos_witness :
    1 ≤ (randompartition_calculate [⟨1, [1, 2]⟩]
      ⟨2, ⟨1, [0, 0]⟩, [5, 5], [0, 0], 0⟩ ⟨fun p => p, 0⟩).1.centroid_frequency.getD 0 0 :=
  randompartition_divisor_pos [⟨1, [1, 2]⟩] ⟨2, ⟨1, [0, 0]⟩, [5, 5], [0, 0], 0⟩ ⟨fun p => p, 0⟩
    (by decide) (by decide) (by decide) ⟨1, [1, 2]⟩ (List.mem_cons_self _ _) ([(1 : ℚ)], 0)
    (by norm_num [randompartition_calculate, rpPass1, Rng.genRange,
      StrideMatrix.chunksExactStride, listChunks, List.range_succ])

/-- Claim C6: a cluster whose frequency is zero after random-partition
initialization keeps its zero-initialized centroid row exactly: no pass-2
accumulation ever touches the row of a cluster no sample was assigned to. -/
theorem randompartition_zero_freq_untouched (blocks : List StrideMatrix) (st : KMeansState)
    (rng : Rng) (hk : 0 < st.k)
    (hb : ∀ b ∈ blocks, b.stride = st.centroids.stride)
    (hflen : st.centroid_frequency.length = st.k)
    (hcen : ∀ q, st.centroids.bfr.getD q 0 = 0)
    (c : Nat)
    (hfz : (randompartition_calculate blocks st rng).1.centroid_frequency.getD c 0 = 0) :
    ∀ t, t < st.centroids.stride →
      (randompartition_calculate blocks st rng).1.centroids.bfr.getD
        (st.centroids.stride * c + t) 0 = 0 := by
  intro t ht
  simp only [randompartition_calculate] at hfz ⊢
  have hnotmem : c ∉ (rpPass1 st.k st.assignments.length st.centroid_frequency rng).1 := by
    intro hcmem
    have := rpPass1_freq_pos st.k hk st.assignments.length st.centroid_frequency rng hflen c hcmem
    omega
  rw [rpFold_frame st.centroids.stride _ _ c hnotmem blocks st.centroids.bfr hb t ht]
  exact hcen _

/-- Witness for C6: `k = 2`, one sample assigned to cluster 0, so cluster 1
has frequency zero and position `1 * 1 + 0` of its centroid row stays zero. -/
theorem randompartition_zero_freq_untouched_witness :
    (randompartition_calculate [⟨1, [9]⟩]
      ⟨2, ⟨1, [0, 0]⟩, [5], [0, 0], 0⟩ ⟨fun _ => 0, 0⟩).1.centroids.bfr.getD
        (1 * 1 + 0) 0 = 0 :=
  randompartition_zero_freq_untouched [⟨1, [9]⟩] ⟨2, ⟨1, [0, 0]⟩, [5], [0, 0], 0⟩
    ⟨fun _ => 0, 0⟩ (by decide) (by decide) (by decide)
    (fun q => getD_replicate_zero 2 q) 1
    (by norm_num [randompartition_calculate, rpPass1, Rng.genRange]) 0 (by decide)

/-- Claim C4: with `k = 1` and a non-empty sample set, the random-partition pass
alone assigns every sample to cluster 0 with frequency `N` and leaves the
single centroid holding, in each coordinate, the arithmetic mean of all `N`
samples (exactly, in the rational embedding). -/
theorem randompartition_k1_mean (blocks : List StrideMatrix) (st : KMeansState) (rng : Rng)
    (hk : st.k = 1)
    (hb : ∀ b ∈ blocks, b.stride = st.centroids.stride)
    (hcen : st.centroids.bfr = List.replicate st.centroids.stride 0)
    (hfreq : st.centroid_frequency = [0])
    (hN : (blocks.map (fun b => b.chunksExactStride.length)).sum = st.assignments.length)
    (hNpos : 0 < st.assignments.length) :
    (randompartition_calculate blocks st rng).1.assignments
        = List.replicate st.assignments.length 0 ∧
    (randompartition_calculate blocks st rng).1.centroid_frequency = [st.assignments.length] ∧
    ∀ j, (randompartition_calculate blocks st rng).1.centroids.bfr.getD j 0
        = colSum ((blocks.map (fun b => b.chunksExactStride)).flatten) j
            / (st.assignments.length : ℚ) := by
  have hp1a : (rpPass1 st.k st.assignments.length st.centroid_frequency rng).1
      = List.replicate st.assignments.length 0 := by
    rw [hk, hfreq]
    exact (rpPass1_k1 st.assignments.length 0 rng).1
  have hp1f : (rpPass1 st.k st.assignments.length st.centroid_frequency rng).2.1
      = [st.assignments.length] := by
    rw [hk, hfreq]
    have h2 := (rpPass1_k1 st.assignments.length 0 rng).2
    simpa using h2
  refine ⟨?_, ?_, ?_⟩
  · simp only [randompartition_calculate]
    exact hp1a
  · simp only [randompartition_calculate]
    exact hp1f
  · intro j
    simp only [randompartition_calculate, hp1a, hp1f]
    have h1 : ∀ b ∈ blocks, ∀ r ∈ b.chunksExactStride, r.length = st.centroids.bfr.length := by
      intro b hbmem r hr
      rw [length_of_mem_listChunks hr, hb b hbmem, hcen, List.length_replicate]
    have h2 : ∀ b ∈ blocks, b.chunksExactStride.length ≤ st.assignments.length := by
      intro b hbmem
      rw [← hN]
      exact elem_le_sum _ _ (List.mem_map_of_mem _ hbmem)
    rw [rpFold_k1 st.centroids.stride [st.assignments.length] st.assignments.length blocks
      st.centroids.bfr h1 h2 j]
    have hbz : st.centroids.bfr.getD j 0 = 0 := by
      rw [hcen]
      exact getD_replicate_zero _ _
    rw [hbz]
    have hd : (([st.assignments.length] : List Nat).getD 0 0 : ℚ)
        = (st.assignments.length : ℚ) := rfl
    by_cases hj : j < st.centroids.bfr.length
    · rw [if_pos hj, hd, zero_add]
    · rw [if_neg hj]
      have hshort : colSum ((blocks.map (fun b => b.chunksExactStride)).flatten) j = 0 := by
        refine colSum_zero_of_short _ _ ?_
        intro r hr
        rcases List.mem_flatten.1 hr with ⟨cs, hcs, hrmem⟩
        rcases List.mem_map.1 hcs with ⟨b, hbmem, rfl⟩
        have hlr := length_of_mem_listChunks hrmem
        rw [hlr, hb b hbmem]
        rw [hcen, List.length_replicate] at hj
        omega
      rw [hshort]
      simp

/-- Witness for C4: two blocks holding one sample each (`2` and `4`), `k = 1`:
the centroid becomes `(2 + 4) / 2 = 3`. -/
theorem randompartition_k1_mean_witness :
    (randompartition_calculate [⟨1, [2]⟩, ⟨1, [4]⟩]
        ⟨1, ⟨1, [0]⟩, [7, 7], [0], 0⟩ ⟨fun _ => 0, 0⟩).1.assignments = List.replicate 2 0 ∧
    (randompartition_calculate [⟨1, [2]⟩, ⟨1, [4]⟩]
        ⟨1, ⟨1, [0]⟩, [7, 7], [0], 0⟩ ⟨fun _ => 0, 0⟩).1.centroid_frequency = [2] ∧
    ∀ j, (randompartition_calculate [⟨1, [2]⟩, ⟨1, [4]⟩]
        ⟨1, ⟨1, [0]⟩, [7, 7], [0], 0⟩ ⟨fun _ => 0, 0⟩).1.centroids.bfr.getD j 0
      = colSum ((([⟨1, [2]⟩, ⟨1, [4]⟩] : List StrideMatrix).map
          (fun b => b.chunksExactStride)).flatten) j / (2 : ℚ) :=
  randompartition_k1_mean [⟨1, [2]⟩, ⟨1, [4]⟩] ⟨1, ⟨1, [0]⟩, [7, 7], [0], 0⟩ ⟨fun _ => 0, 0⟩
    rfl (by decide) rfl rfl (by decide) (by decide)

/-- Claim C2, counterexample: with `k = 3` and `P = 2` blocks of two nonzero
samples each, the claim demands `ceil(3/2) = 2` draws per block copied into
distinct centroid slots — at least two non-default centroids.  The code draws
`max(3/2, 1) = 1` row per block and every block writes slot 0, so the run ends
with centroids `[7, 0, 0]`: exactly one slot differs from the default even
though no sample is zero. -/
theorem randomsample_ceil_counterexample :
    (randomsample_calculate [⟨1, [5, 6]⟩, ⟨1, [7, 8]⟩]
        ⟨3, ⟨1, [0, 0, 0]⟩, [], [0, 0, 0], 0⟩ ⟨fun _ => 1, 0⟩).1.centroids.bfr = [7, 0, 0] ∧
    ∀ r ∈ (StrideMatrix.chunksExactStride ⟨1, [5, 6]⟩
        ++ StrideMatrix.chunksExactStride ⟨1, [7, 8]⟩), r ≠ [(0 : ℚ)] := by
  constructor
  · norm_num [randomsample_calculate, chooseMultiple, chooseLoop, Rng.genRange, writeChunks,
      StrideMatrix.setNthFromIter, mapZipFrom, StrideMatrix.chunksExactStride, listChunks,
      List.range_succ]
  · intro r hr
    simp only [StrideMatrix.chunksExactStride, listChunks] at hr
    norm_num [List.range_succ] at hr
    rcases hr with h | h | h | h <;> subst h <;> intro hcontra <;> simp at hcontra <;>
      norm_num at hcontra

/-- Claim C2, amended: for each of the `P` stride blocks the code draws
`min(max(⌊k/P⌋, 1), block rows)` pairwise-distinct rows of that block without
replacement and copies them verbatim into the leading centroid slots
`0, 1, …` — the same slots for every block, so later blocks overwrite earlier
ones — and every centroid slot at row index `≥ max(⌊k/P⌋, 1)` keeps its
pre-call (default) value. -/
theorem randomsample_amended (blocks : List StrideMatrix) (st : KMeansState) (rng : Rng)
    (hb : ∀ b ∈ blocks, b.stride = st.centroids.stride) :
    ∃ idxs : List (List Nat), idxs.length = blocks.length ∧
      (∀ p ∈ blocks.zip idxs, p.2.Nodup ∧ (∀ v ∈ p.2, v < p.1.chunksExactStride.length) ∧
        p.2.length = min (max (st.k / blocks.length) 1) p.1.chunksExactStride.length) ∧
      (randomsample_calculate blocks st rng).1.centroids
        = copyAllBlocks st.centroids blocks idxs ∧
      ∀ q, st.centroids.stride * max (st.k / blocks.length) 1 ≤ q →
        (randomsample_calculate blocks st rng).1.centroids.bfr.getD q 0
          = st.centroids.bfr.getD q 0 := by
  obtain ⟨idxs, hl, hp, hfold⟩ := rsFold_spec (max (st.k / blocks.length) 1) blocks
    st.centroids rng
  obtain ⟨hs, hlen, hframe⟩ := rsFold_frame (max (st.k / blocks.length) 1) blocks
    st.centroids rng hb
  refine ⟨idxs, hl, hp, ?_, ?_⟩
  · simp only [randomsample_calculate]
    exact hfold
  · intro q hq
    simp only [randomsample_calculate]
    exact hframe q hq

/-- Witness for C2 (amended) at the counterexample input. -/
theorem randomsample_amended_witness :
    ∃ idxs : List (List Nat),
      idxs.length = ([⟨1, [5, 6]⟩, ⟨1, [7, 8]⟩] : List StrideMatrix).length ∧
      (∀ p ∈ ([⟨1, [5, 6]⟩, ⟨1, [7, 8]⟩] : List StrideMatrix).zip idxs,
        p.2.Nodup ∧ (∀ v ∈ p.2, v < p.1.chunksExactStride.length) ∧
        p.2.length = min (max (3 / ([⟨1, [5, 6]⟩, ⟨1, [7, 8]⟩] : List StrideMatrix).length) 1)
          p.1.chunksExactStride.length) ∧
      (randomsample_calculate [⟨1, [5, 6]⟩, ⟨1, [7, 8]⟩]
          ⟨3, ⟨1, [0, 0, 0]⟩, [], [0, 0, 0], 0⟩ ⟨fun _ => 1, 0⟩).1.centroids
        = copyAllBlocks ⟨1, [0, 0, 0]⟩ [⟨1, [5, 6]⟩, ⟨1, [7, 8]⟩] idxs ∧
      ∀ q, 1 * max (3 / ([⟨1, [5, 6]⟩, ⟨1, [7, 8]⟩] : List StrideMatrix).length) 1 ≤ q →
        (randomsample_calculate [⟨1, [5, 6]⟩, ⟨1, [7, 8]⟩]
            ⟨3, ⟨1, [0, 0, 0]⟩, [], [0, 0, 0], 0⟩ ⟨fun _ => 1, 0⟩).1.centroids.bfr.getD q 0
          = ([0, 0, 0] : List ℚ).getD q 0 :=
  randomsample_amended [⟨1, [5, 6]⟩, ⟨1, [7, 8]⟩] ⟨3, ⟨1, [0, 0, 0]⟩, [], [0, 0, 0], 0⟩
    ⟨fun _ => 1, 0⟩ (by decide)

/-- Claim C5: random-sample initialization with 100 sample rows, `k = 5` and a
single stride block writes exactly the five leading centroid rows, each a
verbatim copy (over the whole stride, hence over the true `D = 3 ≤ stride`
dimensions) of a sample row, the five source rows being pairwise distinct. -/
theorem randomsample_five_distinct (b : StrideMatrix) (st : KMeansState) (rng : Rng)
    (hD : 3 ≤ b.stride)
    (hbs : b.stride = st.centroids.stride)
    (hrows : b.chunksExactStride.length = 100)
    (hclen : st.centroids.bfr.length = 5 * st.centroids.stride)
    (hk : st.k = 5) :
    ∃ idx : List Nat, idx.length = 5 ∧ idx.Nodup ∧ (∀ v ∈ idx, v < 100) ∧
      ∀ j, j < 5 → ∀ t, t < st.centroids.stride →
        (randomsample_calculate [b] st rng).1.centroids.bfr.getD
            (st.centroids.stride * j + t) 0
          = (b.chunksExactStride.getD (idx.getD j 0) []).getD t 0 := by
  obtain ⟨idx, hnd, hbd, hlen, heq⟩ := chooseMultiple_spec rng b.chunksExactStride 5
  have hm : max (st.k / ([b] : List StrideMatrix).length) 1 = 5 := by
    simp [hk]
  have hlen5 : idx.length = 5 := by
    rw [hlen, hrows]
    omega
  refine ⟨idx, hlen5, hnd, ?_, ?_⟩
  · intro v hv
    have hvb := hbd v hv
    rw [hrows] at hvb
    exact hvb
  · intro j hj t ht
    simp only [randomsample_calculate, List.foldl_cons, List.foldl_nil, hm]
    rw [heq]
    have hmaplen : (List.map (fun v => b.chunksExactStride.getD v []) idx).length = 5 := by
      rw [List.length_map, hlen5]
    have hc : ∀ c ∈ List.map (fun v => b.chunksExactStride.getD v []) idx,
        c.length = st.centroids.stride := by
      intro c hcm
      rcases List.mem_map.1 hcm with ⟨v, hv, rfl⟩
      have hvlt : v < b.chunksExactStride.length := hbd v hv
      have hlc : (b.chunksExactStride.getD v []).length = b.stride :=
        length_of_mem_listChunks (getD_mem _ _ _ hvlt)
      rw [hlc]
      exact hbs
    have hfit : st.centroids.stride
        * (0 + (List.map (fun v => b.chunksExactStride.getD v []) idx).length)
        ≤ st.centroids.bfr.length := by
      rw [hmaplen, hclen]
      have e : st.centroids.stride * (0 + 5) = 5 * st.centroids.stride := by ring
      omega
    have e0 : st.centroids.stride * j = st.centroids.stride * (0 + j) := by ring
    have hjlt : j < (List.map (fun v => b.chunksExactStride.getD v []) idx).length := by
      rw [hmaplen]
      exact hj
    rw [e0, writeChunks_getD (List.map (fun v => b.chunksExactStride.getD v []) idx) 0
      st.centroids hc hfit j hjlt t ht]
    rw [getD_map_lt _ idx j [] 0 (by rw [hlen5]; exact hj)]

/-- Witness for C5: 100 zero rows at stride 3 (`D = 3`, lane width 1). -/
theorem randomsample_five_distinct_witness :
    ∃ idx : List Nat, idx.length = 5 ∧ idx.Nodup ∧ (∀ v ∈ idx, v < 100) ∧
      ∀ j, j < 5 → ∀ t, t < (3 : Nat) →
        (randomsample_calculate [⟨3, List.replicate 300 0⟩]
            ⟨5, ⟨3, List.replicate 15 0⟩, [], [], 0⟩ ⟨fun _ => 0, 0⟩).1.centroids.bfr.getD
            (3 * j + t) 0
          = ((⟨3, List.replicate 300 0⟩ : StrideMatrix).chunksExactStride.getD
              (idx.getD j 0) []).getD t 0 :=
  randomsample_five_distinct ⟨3, List.replicate 300 0⟩ ⟨5, ⟨3, List.replicate 15 0⟩, [], [], 0⟩
    ⟨fun _ => 0, 0⟩ (by decide) rfl
    (by
      show (listChunks 3 (List.replicate 300 0)).length = 100
      rw [length_listChunks, List.length_replicate])
    (by simp) rfl

/-- Claim C10: random-sample initialization mutates only the centroid rows below
`max(k/P, 1)`: assignments, frequencies, `k`, `distsum`, the stride, the
buffer length, and every centroid buffer position from row `max(k/P, 1)` on
retain their pre-call values. -/
theorem randomsample_frame (blocks : List StrideMatrix) (st : KMeansState) (rng : Rng)
    (hP : 0 < blocks.length)
    (hb : ∀ b ∈ blocks, b.stride = st.centroids.stride) :
    (randomsample_calculate blocks st rng).1.assignments = st.assignments ∧
    (randomsample_calculate blocks st rng).1.centroid_frequency = st.centroid_frequency ∧
    (randomsample_calculate blocks st rng).1.k = st.k ∧
    (randomsample_calculate blocks st rng).1.distsum = st.distsum ∧
    (randomsample_calculate blocks st rng).1.centroids.stride = st.centroids.stride ∧
    (randomsample_calculate blocks st rng).1.centroids.bfr.length
      = st.centroids.bfr.length ∧
    ∀ q, st.centroids.stride * max (st.k / blocks.length) 1 ≤ q →
      (randomsample_calculate blocks st rng).1.centroids.bfr.getD q 0
        = st.centroids.bfr.getD q 0 := by
  obtain ⟨hs, hlen, hframe⟩ := rsFold_frame (max (st.k / blocks.length) 1) blocks
    st.centroids rng hb
  refine ⟨?_, ?_, ?_, ?_, ?_, ?_, ?_⟩ <;> simp only [randomsample_calculate]
  · exact hs
  · exact hlen
  · intro q hq
    exact hframe q hq

/-- Witness for C10 at the concrete counterexample input. -/
theorem randomsample_frame_witness :
    (randomsample_calculate [⟨1, [5, 6]⟩, ⟨1, [7, 8]⟩]
        ⟨3, ⟨1, [0, 0, 0]⟩, [], [0, 0, 0], 0⟩ ⟨fun _ => 1, 0⟩).1.assignments = [] ∧
    (randomsample_calculate [⟨1, [5, 6]⟩, ⟨1, [7, 8]⟩]
        ⟨3, ⟨1, [0, 0, 0]⟩, [], [0, 0, 0], 0⟩ ⟨fun _ => 1, 0⟩).1.centroid_frequency
      = [0, 0, 0] ∧
    (randomsample_calculate [⟨1, [5, 6]⟩, ⟨1, [7, 8]⟩]
        ⟨3, ⟨1, [0, 0, 0]⟩, [], [0, 0, 0], 0⟩ ⟨fun _ => 1, 0⟩).1.k = 3 ∧
    (randomsample_calculate [⟨1, [5, 6]⟩, ⟨1, [7, 8]⟩]
        ⟨3, ⟨1, [0, 0, 0]⟩, [], [0, 0, 0], 0⟩ ⟨fun _ => 1, 0⟩).1.distsum = 0 ∧
    (randomsample_calculate [⟨1, [5, 6]⟩, ⟨1, [7, 8]⟩]
        ⟨3, ⟨1, [0, 0, 0]⟩, [], [0, 0, 0], 0⟩ ⟨fun _ => 1, 0⟩).1.centroids.stride = 1 ∧
    (randomsample_calculate [⟨1, [5, 6]⟩, ⟨1, [7, 8]⟩]
        ⟨3, ⟨1, [0, 0, 0]⟩, [], [0, 0, 0], 0⟩ ⟨fun _ => 1, 0⟩).1.centroids.bfr.length
      = ([0, 0, 0] : List ℚ).length ∧
    ∀ q, 1 * max (3 / ([⟨1, [5, 6]⟩, ⟨1, [7, 8]⟩] : List StrideMatrix).length) 1 ≤ q →
      (randomsample_calculate [⟨1, [5, 6]⟩, ⟨1, [7, 8]⟩]
          ⟨3, ⟨1, [0, 0, 0]⟩, [], [0, 0, 0], 0⟩ ⟨fun _ => 1, 0⟩).1.centroids.bfr.getD q 0
        = ([0, 0, 0] : List ℚ).getD q 0 :=
  randomsample_frame [⟨1, [5, 6]⟩, ⟨1, [7, 8]⟩] ⟨3, ⟨1, [0, 0, 0]⟩, [], [0, 0, 0], 0⟩
    ⟨fun _ => 1, 0⟩ (by decide) (by decide)

/-- Claim C7: both initialization strategies are pure functions of the sample
blocks, the state and the randomness source: invocations on equal inputs
(in particular, a randomness source in an identical state) produce exactly
equal centroids, assignments, frequencies, and successor rng states. -/
theorem init_deterministic (blocks1 blocks2 : List StrideMatrix) (st1 st2 : KMeansState)
    (rng1 rng2 : Rng) (hb : blocks1 = blocks2) (hst : st1 = st2) (hr : rng1 = rng2) :
    randompartition_calculate blocks1 st1 rng1 = randompartition_calculate blocks2 st2 rng2 ∧
    randomsample_calculate blocks1 st1 rng1 = randomsample_calculate blocks2 st2 rng2 := by
  subst hb
  subst hst
  subst hr
  exact ⟨rfl, rfl⟩

/-- Witness for C7 at a concrete input. -/
theorem init_deterministic_witness :
    randompartition_calculate [⟨1, [1, 2]⟩] ⟨2, ⟨1, [0, 0]⟩, [5, 5], [0, 0], 0⟩ ⟨fun p => p, 0⟩
      = randompartition_calculate [⟨1, [1, 2]⟩] ⟨2, ⟨1, [0, 0]⟩, [5, 5], [0, 0], 0⟩
        ⟨fun p => p, 0⟩ ∧
    randomsample_calculate [⟨1, [1, 2]⟩] ⟨2, ⟨1, [0, 0]⟩, [5, 5], [0, 0], 0⟩ ⟨fun p => p, 0⟩
      = randomsample_calculate [⟨1, [1, 2]⟩] ⟨2, ⟨1, [0, 0]⟩, [5, 5], [0, 0], 0⟩
        ⟨fun p => p, 0⟩ :=
  init_deterministic [⟨1, [1, 2]⟩] [⟨1, [1, 2]⟩] ⟨2, ⟨1, [0, 0]⟩, [5, 5], [0, 0], 0⟩
    ⟨2, ⟨1, [0, 0]⟩, [5, 5], [0, 0], 0⟩ ⟨fun p => p, 0⟩ ⟨fun p => p, 0⟩ rfl rfl rfl

/-- Claim C8: the modelled construction/invocation validation accepts a
configuration exactly when `k ≥ 1`, `k ≤ N`, `D ≥ 1` and the sample buffer
has length `N·D`; every invalid configuration yields an explicit error. -/
theorem validateConfig_spec (bufLen n d k : Nat) :
    (validateConfig bufLen n d k = Except.ok ()
      ↔ (0 < k ∧ k ≤ n ∧ 0 < d ∧ bufLen = n * d)) ∧
    ((k = 0 ∨ n < k ∨ d = 0 ∨ bufLen ≠ n * d)
      → ∃ msg, validateConfig bufLen n d k = Except.error msg) := by
  unfold validateConfig
  constructor
  · split_ifs <;> simp <;> omega
  · intro hbad
    split_ifs with h1 h2 h3 h4
    · exact ⟨_, rfl⟩
    · exact ⟨_, rfl⟩
    · exact ⟨_, rfl⟩
    · exact ⟨_, rfl⟩
    · omega

/-- Witness for C8: valid and invalid concrete configurations. -/
theorem validateConfig_spec_witness :
    ((validateConfig 6 3 2 2 = Except.ok () ↔ (0 < 2 ∧ 2 ≤ 3 ∧ 0 < 2 ∧ 6 = 3 * 2)) ∧
      ((2 = 0 ∨ 3 < 2 ∨ 2 = 0 ∨ 6 ≠ 3 * 2)
        → ∃ msg, validateConfig 6 3 2 2 = Except.error msg)) ∧
    ((validateConfig 6 3 2 0 = Except.ok () ↔ (0 < 0 ∧ 0 ≤ 3 ∧ 0 < 2 ∧ 6 = 3 * 2)) ∧
      ((0 = 0 ∨ 3 < 0 ∨ 2 = 0 ∨ 6 ≠ 3 * 2)
        → ∃ msg, validateConfig 6 3 2 0 = Except.error msg)) :=
  ⟨validateConfig_spec 6 3 2 2, validateConfig_spec 6 3 2 0⟩
